import Mathlib

/-!
Verification of the YOLOv6-R oriented-detector specification against the
repository sources.  The repository fragment contains `hubconf.py`,
`tools/train_R.py` and a configuration file; those are embedded directly.
The core components (AngleCodec, RotatedGeometry, Assigner, LossAggregator,
RotatedNMS) live in `yolov6.*` modules that are not part of the fragment,
so they are modelled from the specification text, as marked on each
definition.
-/

/-! ## AngleCodec -/

/-- Modelled from the spec: the codec's accepted angle domain, 180 degrees
starting at 0 (the `yolov6` AngleCodec source is missing from the fragment). -/
def angleDomain : Set ℚ := Set.Ico 0 180

/-- Modelled from the spec: modular wrap of a value into `[0, m)`. -/
def qmod (x m : ℚ) : ℚ := x - m * ⌊x / m⌋

/-- Modelled from the spec: an input angle outside the accepted domain is
normalized via modulo before encoding rather than rejected. -/
def normalizeAngle (x : ℚ) : ℚ := qmod x 180

/-- Modelled from the spec: width of one discretization bin when the domain
is split into `n + 1` bins. -/
def binWidth (n : ℕ) : ℚ := 180 / (n + 1)

/-- Modelled from the spec: index of the bin containing an in-domain angle. -/
def binOf (n : ℕ) (t : ℚ) : ℕ := (⌊t / binWidth n⌋).toNat

/-- Modelled from the spec: circular distance between bins `i` and `b` among
`m` bins arranged on a circle. -/
def circDist (m i b : ℕ) : ℕ := min (Nat.dist i b) (m - Nat.dist i b)

/-- Modelled from the spec: smoothed CSL window of radius `r`, giving nearby
bins partial credit, strictly peaked at distance 0. -/
def cslWindow (r d : ℕ) : ℚ := if d ≤ r then (r : ℚ) + 1 - d else 0

/-- Modelled from the spec: CSL encoding of an in-domain angle into a soft
label vector over `n + 1` bins. -/
def encodeCslCore (n r : ℕ) (t : ℚ) : Fin (n + 1) → ℚ :=
  fun i => cslWindow r (circDist (n + 1) i (binOf n t))

/-- Modelled from the spec: CSL encoding, normalizing the angle first. -/
def encodeCsl (n r : ℕ) (t : ℚ) : Fin (n + 1) → ℚ :=
  encodeCslCore n r (normalizeAngle t)

/-- Helper for the decoder: fold over the remaining indices keeping the
index of the strictly largest value seen so far. -/
def argmaxAux {m : ℕ} (f : Fin m → ℚ) : List (Fin m) → Fin m → Fin m
  | [], best => best
  | i :: rest, best => argmaxAux f rest (if f best < f i then i else best)

/-- Modelled from the spec: argmax over a score vector with `n + 1` entries. -/
def argmaxFin {n : ℕ} (f : Fin (n + 1) → ℚ) : Fin (n + 1) :=
  argmaxAux f (List.finRange (n + 1)) 0

/-- Modelled from the spec: CSL decoding takes the argmax bin, converts it to
the bin-center angle and wraps into the domain by modular arithmetic. -/
def decodeCsl (n : ℕ) (v : Fin (n + 1) → ℚ) : ℚ :=
  qmod ((((argmaxFin v : Fin (n + 1)) : ℕ) + 1 / 2) * binWidth n) 180

/-- Modelled from the spec: regression encoding, the normalized angle value. -/
def encodeRegCore (t : ℚ) : ℚ := t / 180

/-- Modelled from the spec: regression encoding, normalizing the angle first. -/
def encodeReg (t : ℚ) : ℚ := encodeRegCore (normalizeAngle t)

/-- Modelled from the spec: regression decoding inverse-normalizes and wraps
into the domain by modular arithmetic. -/
def decodeReg (t : ℚ) : ℚ := qmod (180 * t) 180

/-- Modelled from the spec: MGAR encoding of an in-domain angle, a one-hot
coarse sector classification over `n + 1` sectors plus the regression offset
within the selected sector, normalized to `[0, 1)` of one sector width. -/
def encodeMgarCore (n : ℕ) (t : ℚ) : (Fin (n + 1) → ℚ) × ℚ :=
  (fun i => if (i : ℕ) = binOf n t then 1 else 0,
   (t - (binOf n t : ℚ) * binWidth n) / binWidth n)

/-- Modelled from the spec: MGAR encoding, normalizing the angle first. -/
def encodeMgar (n : ℕ) (t : ℚ) : (Fin (n + 1) → ℚ) × ℚ :=
  encodeMgarCore n (normalizeAngle t)

/-- Modelled from the spec: MGAR decoding selects the highest-scoring sector,
adds the regressed offset and wraps into the domain by modular arithmetic. -/
def decodeMgar (n : ℕ) (t : (Fin (n + 1) → ℚ) × ℚ) : ℚ :=
  qmod ((((argmaxFin t.1 : Fin (n + 1)) : ℕ) + t.2) * binWidth n) 180

/-- Error kinds of the angle codec, modelled from the spec. -/
inductive AngleCodecError where
  | invalidAngleDomain : AngleCodecError
deriving DecidableEq

/-- Modelled from the spec: the guarded normalization step run before any
encoding; `InvalidAngleDomain` is guarded but should be unreachable. -/
def guardDomain (t : ℚ) : Except AngleCodecError ℚ :=
  let t2 := normalizeAngle t
  if 0 ≤ t2 ∧ t2 < 180 then Except.ok t2 else Except.error AngleCodecError.invalidAngleDomain

/-! ## RotatedGeometry: rotated IoU (modelled from the spec) -/

/-- A rotated box: center, width, height, and the rotation given by the
cosine and sine of its angle (so all corner data is polynomial in the
fields).  Modelled from the spec; the `yolov6` rotated-geometry source is
missing from the fragment. -/
structure RBox where
  cx : ℝ
  cy : ℝ
  w : ℝ
  h : ℝ
  rc : ℝ
  rs : ℝ

/-- A valid rotated box: the rotation pair lies on the unit circle and the
side lengths are nonnegative. -/
def RBox.valid (B : RBox) : Prop := B.rc ^ 2 + B.rs ^ 2 = 1 ∧ 0 ≤ B.w ∧ 0 ≤ B.h

/-- A non-degenerate rotated box has strictly positive side lengths. -/
def RBox.nondeg (B : RBox) : Prop := 0 < B.w ∧ 0 < B.h

/-- The axis-aligned `w × h` rectangle centered at the origin of the plane. -/
def rectSet (w h : ℝ) : Set (Fin 2 → ℝ) :=
  Set.pi Set.univ fun i => Set.Icc (-(![w, h] i) / 2) (![w, h] i / 2)

/-- The inverse rotation with cosine `c` and sine `s`, as a linear map. -/
noncomputable def rotInv (c s : ℝ) : (Fin 2 → ℝ) →ₗ[ℝ] (Fin 2 → ℝ) :=
  Matrix.toLin' !![c, s; -s, c]

/-- The center of a rotated box as a point of the plane. -/
def RBox.center (B : RBox) : Fin 2 → ℝ := ![B.cx, B.cy]

/-- The set of plane points covered by a rotated box: un-rotate around the
center and test against the axis-aligned rectangle. -/
def RBox.toSet (B : RBox) : Set (Fin 2 → ℝ) :=
  {p | rotInv B.rc B.rs (p - B.center) ∈ rectSet B.w B.h}

/-- Modelled from the spec: area of a rotated box. -/
noncomputable def RBox.area (B : RBox) : ℝ :=
  (MeasureTheory.volume B.toSet).toReal

/-- Modelled from the spec: intersection area of two rotated boxes. -/
noncomputable def interArea (A B : RBox) : ℝ :=
  (MeasureTheory.volume (A.toSet ∩ B.toSet)).toReal

/-- Modelled from the spec: rotated IoU, intersection over union, with
degenerate (zero-area) boxes returning 0 rather than dividing by zero. -/
noncomputable def rotated_iou (A B : RBox) : ℝ :=
  if A.area = 0 ∨ B.area = 0 then 0
  else interArea A B / (A.area + B.area - interArea A B)

/-! ## RotatedNMS (modelled from the spec) -/

/-- A detection candidate: a box of some geometry type, a confidence score
and a class id. -/
structure Cand (β : Type) where
  box : β
  conf : ℚ
  cls : ℕ
deriving DecidableEq

/-- Insert a candidate into a confidence-descending list, keeping the list
order stable for equal confidences. -/
def insertByConf {β : Type} (c : Cand β) : List (Cand β) → List (Cand β)
  | [] => [c]
  | d :: rest => if d.conf < c.conf then c :: d :: rest else d :: insertByConf c rest

/-- Sort candidates by descending confidence (stable insertion sort). -/
def sortByConf {β : Type} : List (Cand β) → List (Cand β)
  | [] => []
  | c :: rest => insertByConf c (sortByConf rest)

/-- Modelled from the spec: the greedy suppression loop of RotatedNMS — keep
the most confident remaining candidate, suppress all not-yet-removed
candidates whose rotated IoU with it exceeds the threshold, and stop when
all candidates are resolved or the maximum-detections cap is reached. -/
def nmsGreedy {β : Type} (iou : β → β → ℚ) (iouThr : ℚ) : ℕ → List (Cand β) → List (Cand β)
  | 0, _ => []
  | _ + 1, [] => []
  | k + 1, c :: rest =>
      c :: nmsGreedy iou iouThr k (rest.filter fun d => iou c.box d.box ≤ iouThr)

/-- The class ids occurring in a candidate list, first occurrences kept. -/
def uniqueClasses : List ℕ → List ℕ
  | [] => []
  | k :: rest => k :: uniqueClasses (rest.filter fun j => j ≠ k)
termination_by l => l.length
decreasing_by
  exact Nat.lt_succ_of_le (List.length_filter_le _ _)

/-- Modelled from the spec: RotatedNMS — filter candidates below the
confidence threshold, group by class, run the greedy loop per group sorted
by descending confidence, and cap the number of detections.  The `yolov6`
NMS source is missing from the fragment; the rotated-IoU function is a
parameter. -/
def nmsR {β : Type} (iou : β → β → ℚ) (confThr iouThr : ℚ) (maxDet : ℕ)
    (cands : List (Cand β)) : List (Cand β) :=
  let kept := cands.filter fun c => confThr ≤ c.conf
  (((uniqueClasses (kept.map Cand.cls)).map fun k =>
      nmsGreedy iou iouThr maxDet (sortByConf (kept.filter fun c => c.cls = k))).flatten).take maxDet

/-! ## Assigner (modelled from the spec) -/

/-- Modelled from the spec: deterministic owner selection for one grid site.
Instances `0, ..., k - 1` are scanned in index order; among the instances
claiming the site (candidate, above the adaptive threshold, center inside)
the one with the highest rotated IoU wins, and on equal IoU the earlier,
i.e. lower, instance index is kept.  The `yolov6` assigner source is missing
from the fragment; `claims` and `iouOf` abstract the per-instance candidate
test and rotated IoU at this site. -/
def ownerUpTo (claims : ℕ → Bool) (iouOf : ℕ → ℚ) : ℕ → Option ℕ
  | 0 => none
  | k + 1 =>
    if claims k then
      match ownerUpTo claims iouOf k with
      | none => some k
      | some j => if iouOf j < iouOf k then some k else some j
    else ownerUpTo claims iouOf k

/-! ## LossAggregator (modelled from the spec) -/

/-- The named scalar loss components of one training step. -/
structure LossTerms where
  clsTerm : ℚ
  iouTerm : ℚ
  dflTerm : ℚ
  angleTerm : ℚ
deriving DecidableEq

/-- Per-term loss weights, externally supplied by the configuration. -/
structure LossWeights where
  wClass : ℚ
  wIou : ℚ
  wDfl : ℚ
  wAngle : ℚ
deriving DecidableEq

/-- Per-site data consumed by the loss aggregator: the positive label from
the assignment, the site's classification-loss value, its box / DFL / angle
loss contributions, and its IoU-derived quality weight. -/
structure SiteLossData where
  pos : Bool
  clsVal : ℚ
  boxVal : ℚ
  dflVal : ℚ
  angleVal : ℚ
  weight : ℚ
deriving DecidableEq

/-- Division returning `none` instead of a division-by-zero fault. -/
def safeDiv (a b : ℚ) : Option ℚ := if b = 0 then none else some (a / b)

/-- Modelled from the spec: the loss aggregation for one batch.  If zero
positive sites exist, the box, DFL and angle losses are defined as zero and
the classification loss is still computed over the negative sites; otherwise
the positive-dependent terms are normalized by the summed quality weights.
Returns the named terms and the weighted total; `none` models a
division-by-zero fault. -/
def aggregateLoss (lw : LossWeights) (sites : List SiteLossData) :
    Option (LossTerms × ℚ) :=
  let posSites := sites.filter fun s => s.pos
  if posSites.isEmpty then
    let c := (sites.map fun s => s.clsVal).sum
    some (⟨c, 0, 0, 0⟩, lw.wClass * c)
  else
    let norm := (posSites.map fun s => s.weight).sum
    match safeDiv ((posSites.map fun s => s.boxVal).sum) norm,
          safeDiv ((posSites.map fun s => s.dflVal).sum) norm,
          safeDiv ((posSites.map fun s => s.angleVal).sum) norm with
    | some b, some d, some a =>
      let c := (sites.map fun s => s.clsVal).sum
      some (⟨c, b, d, a⟩, lw.wClass * c + lw.wIou * b + lw.wDfl * d + lw.wAngle * a)
    | _, _, _ => none

/-- Glue between Assigner and LossAggregator: the per-site positive flag is
whether the assigner selected an owner among the `numInst` ground-truth
instances for that site.  `base` carries the per-site loss payloads; site
`i` claims instance `j` according to `claims i j` with rotated IoU
`iouOf i j`. -/
def assignedSites (claims : ℕ → ℕ → Bool) (iouOf : ℕ → ℕ → ℚ) (numInst : ℕ)
    (base : List SiteLossData) : List SiteLossData :=
  (List.range base.length).zip base |>.map fun si =>
    { si.2 with pos := (ownerUpTo (claims si.1) (iouOf si.1) numInst).isSome }

/-! ## RotatedGeometry: rescale (modelled from the spec) and the
`hubconf.py` detector pipeline -/

/-- An axis-aligned box in corner form, as handled by `hubconf.py`. -/
structure HBox where
  x1 : ℚ
  y1 : ℚ
  x2 : ℚ
  y2 : ℚ
deriving DecidableEq

/-- Coordinatewise order on corner boxes. -/
def boxLE (a b : HBox) : Prop :=
  a.x1 ≤ b.x1 ∧ a.y1 ≤ b.y1 ∧ a.x2 ≤ b.x2 ∧ a.y2 ≤ b.y2

/-- Modelled from the spec: the letterbox gain between a network-input shape
and an original-image shape, both given as (height, width). -/
def letterGain (fromShape toShape : ℚ × ℚ) : ℚ :=
  min (fromShape.1 / toShape.1) (fromShape.2 / toShape.2)

/-- Modelled from the spec: the forward letterbox transform applied by the
external pre-processing — scale by the gain, then add the pad offsets. -/
def letterboxFwd (fromShape toShape : ℚ × ℚ) (pw ph : ℚ) (b : HBox) : HBox :=
  let g := letterGain fromShape toShape
  ⟨g * b.x1 + pw, g * b.y1 + ph, g * b.x2 + pw, g * b.y2 + ph⟩

/-- Modelled from the spec: `rescale` inverts the letterbox transform —
subtract the pad offsets, then divide by the gain (the `yolov6`
`Inferer.rescale` source is missing from the fragment). -/
def rescaleBox (fromShape toShape : ℚ × ℚ) (pw ph : ℚ) (b : HBox) : HBox :=
  let g := letterGain fromShape toShape
  ⟨(b.x1 - pw) / g, (b.y1 - ph) / g, (b.x2 - pw) / g, (b.y2 - ph) / g⟩

/-- Round each coordinate to the nearest integer, as `.round()` does in
`Detector.forward`. -/
def roundBox (b : HBox) : HBox :=
  ⟨(round b.x1 : ℤ), (round b.y1 : ℤ), (round b.x2 : ℤ), (round b.y2 : ℤ)⟩

/-- The post-processing of `Detector.forward` (src/hubconf.py lines 88-99):
run NMS on the raw predictions, then map every surviving box back to
original-image coordinates with `rescale` and round. -/
def detectorForwardBoxes (iou : HBox → HBox → ℚ) (confThr iouThr : ℚ) (maxDet : ℕ)
    (fromShape toShape : ℚ × ℚ) (pw ph : ℚ) (preds : List (Cand HBox)) :
    List (Cand HBox) :=
  (nmsR iou confThr iouThr maxDet preds).map fun c =>
    { c with box := roundBox (rescaleBox fromShape toShape pw ph c.box) }

/-! ## tools/train_R.py: orchestrator entry and resume handling -/

/-- The calls the `main` function of `tools/train_R.py` can issue on the
trainer object. -/
inductive TrainerCall where
  | calibrate : TrainerCall
  | train : TrainerCall
deriving DecidableEq

/-- The command-line flags of `tools/train_R.py` relevant to the
calibration dispatch. -/
structure OrchestratorArgs where
  quant : Bool
  calib : Bool
deriving DecidableEq

/-- The trainer calls issued by `main` (src/tools/train_R.py lines 151-158):
when both the quant and calib flags are set, `trainer.calibrate(cfg)` runs
and `main` returns; otherwise `trainer.train()` runs. -/
def mainTrainerCalls (a : OrchestratorArgs) : List TrainerCall :=
  if a.quant && a.calib then [TrainerCall.calibrate] else [TrainerCall.train]

/-- The Python `resume` argument of `tools/train_R.py`: `False` (fresh run),
bare `True` (resume the most recent checkpoint), or a checkpoint path.
Paths are modelled as their component lists. -/
inductive ResumeArg where
  | off : ResumeArg
  | flag : ResumeArg
  | path : List String → ResumeArg
deriving DecidableEq

/-- The argument namespace handled by `check_and_init`: the resume argument,
the save directory, and an abstract payload standing for every other
command-line field. -/
structure RunArgs where
  resume : ResumeArg
  save_dir : List String
  payload : ℕ
deriving DecidableEq

/-- The external filesystem and experiment bookkeeping consumed by
`check_and_init`: the file-existence test, the parsed `args.yaml` contents
found at a path (if any), the checkpoint found by
`find_latest_checkpoint()`, and the fresh directory produced by
`increment_name`. -/
structure FileSystem where
  isFile : List String → Bool
  savedArgs : List String → Option RunArgs
  latestCheckpoint : List String
  freshSaveDir : List String

/-- The checkpoint path resolved from a truthy resume argument
(src/tools/train_R.py line 98). -/
def resolveCkptPath (fs : FileSystem) : ResumeArg → List String
  | ResumeArg.path p => p
  | _ => fs.latestCheckpoint

/-- The argument handling of `check_and_init` (src/tools/train_R.py lines
90-129).  On resume: assert the resolved checkpoint is an existing file; if
an `args.yaml` exists two directories above it, replace the whole namespace
by its saved values, otherwise keep the namespace and point `save_dir` two
directories above the checkpoint; finally set `resume` to the checkpoint
path.  Without resume: allocate a fresh save directory.  `Except.error`
models the Python `AssertionError`. -/
def check_and_init_args (fs : FileSystem) (args : RunArgs) : Except String RunArgs :=
  match args.resume with
  | ResumeArg.off => Except.ok { args with save_dir := fs.freshSaveDir }
  | r =>
    let cp := resolveCkptPath fs r
    if fs.isFile cp then
      let base := cp.dropLast.dropLast
      match fs.savedArgs (base ++ ["args.yaml"]) with
      | some saved => Except.ok { saved with resume := ResumeArg.path cp }
      | none => Except.ok { args with save_dir := base, resume := ResumeArg.path cp }
    else Except.error "the checkpoint path is not exist"

/-! ## hubconf.py: check_img_size -/

/-- The dynamically-typed `img_size` argument of `check_img_size`
(src/hubconf.py line 47): an integer, a list of integers, or a value of any
other type. -/
inductive ImgSizeArg where
  | int : ℤ → ImgSizeArg
  | list : List ℤ → ImgSizeArg
  | other : ImgSizeArg
deriving DecidableEq

/-- The inner `make_divisible` of `check_img_size` (src/hubconf.py lines
48-49): `math.ceil(x / divisor) * divisor`. -/
def make_divisible (x divisor : ℤ) : ℤ := ⌈(x : ℚ) / (divisor : ℚ)⌉ * divisor

/-- `check_img_size` (src/hubconf.py lines 47-59): round an integer size up
to a multiple of the stride with a lower bound `fl`, returning the rounded
size twice; apply the rounding element-wise to a list; raise on any other
input type.  The printed warning is external logging and is not modelled. -/
def check_img_size (img_size : ImgSizeArg) (s : ℤ) (fl : ℤ) : Except String (List ℤ) :=
  match img_size with
  | ImgSizeArg.int n => Except.ok (List.replicate 2 (max (make_divisible n s) fl))
  | ImgSizeArg.list xs => Except.ok (xs.map fun x => max (make_divisible x s) fl)
  | ImgSizeArg.other => Except.error "Unsupported type of img_size"

/-! ## Helper lemmas -/

theorem qmod_bounds (x m : ℚ) (hm : 0 < m) : 0 ≤ qmod x m ∧ qmod x m < m := by
  have hd : m * (x / m) = x := by field_simp
  have h1 := mul_le_mul_of_nonneg_left (Int.floor_le (x / m)) hm.le
  have h2 := mul_lt_mul_of_pos_left (Int.lt_floor_add_one (x / m)) hm
  rw [hd] at h1 h2
  rw [mul_add, mul_one] at h2
  unfold qmod
  constructor <;> linarith

theorem qmod_self_of_mem (x m : ℚ) (h0 : 0 ≤ x) (h1 : x < m) : qmod x m = x := by
  have hm : 0 < m := lt_of_le_of_lt h0 h1
  have hz : ⌊x / m⌋ = 0 := by
    rw [Int.floor_eq_zero_iff]
    exact ⟨div_nonneg h0 hm.le, (div_lt_one hm).mpr h1⟩
  unfold qmod
  rw [hz]
  push_cast
  ring

theorem argmaxAux_spec {m : ℕ} (f : Fin m → ℚ) (b : Fin m) :
    ∀ (l : List (Fin m)) (best : Fin m),
      (∀ i ∈ l, i ≠ b → f i < f b) →
      (best = b ∨ (f best < f b ∧ b ∈ l)) →
      argmaxAux f l best = b := by
  intro l
  induction l with
  | nil =>
    intro best _ hb
    rcases hb with h | ⟨_, h⟩
    · simpa [argmaxAux] using h
    · exact absurd h (List.not_mem_nil b)
  | cons i rest ih =>
    intro best hl hb
    have hltail : ∀ j ∈ rest, j ≠ b → f j < f b :=
      fun j hj => hl j (List.mem_cons_of_mem _ hj)
    simp only [argmaxAux]
    by_cases hib : i = b
    · subst hib
      rcases hb with rfl | ⟨hlt, _⟩
      · rw [if_neg (lt_irrefl (f best))]
        exact ih best hltail (Or.inl rfl)
      · rw [if_pos hlt]
        exact ih i hltail (Or.inl rfl)
    · have hfi : f i < f b := hl i (List.mem_cons_self i rest) hib
      rcases hb with rfl | ⟨hlt, hmem⟩
      · rw [if_neg (not_lt.mpr hfi.le)]
        exact ih best hltail (Or.inl rfl)
      · have hbmem : b ∈ rest := by
          rcases List.mem_cons.mp hmem with h | h
          · exact absurd h.symm hib
          · exact h
        by_cases hc : f best < f i
        · rw [if_pos hc]
          exact ih i hltail (Or.inr ⟨hfi, hbmem⟩)
        · rw [if_neg hc]
          exact ih best hltail (Or.inr ⟨hlt, hbmem⟩)

theorem argmaxFin_spec {n : ℕ} (f : Fin (n + 1) → ℚ) (b : Fin (n + 1))
    (hb : ∀ i, i ≠ b → f i < f b) : argmaxFin f = b := by
  unfold argmaxFin
  apply argmaxAux_spec f b (List.finRange (n + 1)) 0 (fun i _ hi => hb i hi)
  by_cases h0 : (0 : Fin (n + 1)) = b
  · exact Or.inl h0
  · exact Or.inr ⟨hb 0 h0, List.mem_finRange b⟩

theorem binWidth_pos (n : ℕ) : 0 < binWidth n := by
  unfold binWidth
  positivity

theorem binWidth_times (n : ℕ) : ((n : ℚ) + 1) * binWidth n = 180 := by
  unfold binWidth
  field_simp

theorem binOf_spec (n : ℕ) (t : ℚ) (h0 : 0 ≤ t) (h1 : t < 180) :
    binOf n t ≤ n ∧ (binOf n t : ℚ) * binWidth n ≤ t ∧
      t < ((binOf n t : ℚ) + 1) * binWidth n := by
  have hw : 0 < binWidth n := binWidth_pos n
  have hq0 : 0 ≤ t / binWidth n := div_nonneg h0 hw.le
  have hqlt : t / binWidth n < (n : ℚ) + 1 := by
    rw [div_lt_iff₀ hw]
    linarith [binWidth_times n]
  have hfl0 : 0 ≤ ⌊t / binWidth n⌋ := Int.floor_nonneg.mpr hq0
  have hcast : (binOf n t : ℚ) = ((⌊t / binWidth n⌋ : ℤ) : ℚ) := by
    unfold binOf
    exact_mod_cast congrArg (fun z : ℤ => (z : ℚ)) (Int.toNat_of_nonneg hfl0)
  have hmul : t / binWidth n * binWidth n = t := div_mul_cancel₀ t hw.ne'
  refine ⟨?_, ?_, ?_⟩
  · have : ⌊t / binWidth n⌋ < (n : ℤ) + 1 := by
      rw [Int.floor_lt]
      push_cast
      exact hqlt
    unfold binOf
    omega
  · have h := mul_le_mul_of_nonneg_right (Int.floor_le (t / binWidth n)) hw.le
    rw [hmul] at h
    rw [hcast]
    exact h
  · have h := mul_lt_mul_of_pos_right (Int.lt_floor_add_one (t / binWidth n)) hw
    rw [hmul] at h
    rw [hcast]
    linarith

theorem cslWindow_peak (r d : ℕ) (hd : 1 ≤ d) : cslWindow r d < cslWindow r 0 := by
  unfold cslWindow
  rw [if_pos (Nat.zero_le r)]
  have h1 : (1 : ℚ) ≤ (d : ℚ) := by exact_mod_cast hd
  split_ifs with h
  · push_cast
    linarith
  · push_cast
    linarith [show (0 : ℚ) ≤ (r : ℚ) from by positivity]

theorem argmax_encodeCslCore (n r : ℕ) (t : ℚ) (h0 : 0 ≤ t) (h1 : t < 180) :
    ((argmaxFin (encodeCslCore n r t) : Fin (n + 1)) : ℕ) = binOf n t := by
  obtain ⟨hble, _, _⟩ := binOf_spec n t h0 h1
  have hlt : binOf n t < n + 1 := Nat.lt_succ_of_le hble
  have harg := argmaxFin_spec (encodeCslCore n r t) ⟨binOf n t, hlt⟩ ?_
  · rw [harg]
  · intro i hi
    have hib : (i : ℕ) ≠ binOf n t := fun hc => hi (Fin.ext hc)
    have hd : 1 ≤ circDist (n + 1) i (binOf n t) := by
      have hi2 := i.isLt
      simp only [circDist, Nat.dist]
      omega
    have hz : circDist (n + 1) (binOf n t) (binOf n t) = 0 := by
      simp [circDist, Nat.dist_self]
    unfold encodeCslCore
    show cslWindow r (circDist (n + 1) i (binOf n t)) <
      cslWindow r (circDist (n + 1) (binOf n t) (binOf n t))
    rw [hz]
    exact cslWindow_peak r _ hd

theorem argmax_encodeMgarCore (n : ℕ) (t : ℚ) (h0 : 0 ≤ t) (h1 : t < 180) :
    ((argmaxFin (encodeMgarCore n t).1 : Fin (n + 1)) : ℕ) = binOf n t := by
  obtain ⟨hble, _, _⟩ := binOf_spec n t h0 h1
  have hlt : binOf n t < n + 1 := Nat.lt_succ_of_le hble
  have harg := argmaxFin_spec (encodeMgarCore n t).1 ⟨binOf n t, hlt⟩ ?_
  · rw [harg]
  · intro i hi
    have hib : (i : ℕ) ≠ binOf n t := fun hc => hi (Fin.ext hc)
    show (if (i : ℕ) = binOf n t then (1 : ℚ) else 0) <
      (if (binOf n t : ℕ) = binOf n t then (1 : ℚ) else 0)
    rw [if_neg hib, if_pos rfl]
    norm_num

/-! ## Claim theorems -/

/-- C1: for every angle in the codec's domain, decode(encode(theta)) equals
theta within the active variant's quantization tolerance — exactly for the
regression variant, and within one bin width for the CSL classification and
MGAR variants. -/
theorem C1_decode_encode_roundtrip (n r : ℕ) (t : ℚ) (h0 : 0 ≤ t) (h1 : t < 180) :
    decodeReg (encodeReg t) = t ∧
    |decodeCsl n (encodeCsl n r t) - t| ≤ binWidth n ∧
    |decodeMgar n (encodeMgar n t) - t| ≤ binWidth n := by
  have hnorm : normalizeAngle t = t := qmod_self_of_mem t 180 h0 h1
  have hw : 0 < binWidth n := binWidth_pos n
  obtain ⟨hble, hlo, hhi⟩ := binOf_spec n t h0 h1
  refine ⟨?_, ?_, ?_⟩
  · unfold decodeReg encodeReg encodeRegCore
    rw [hnorm]
    have h180 : (180 : ℚ) * (t / 180) = t := by field_simp
    rw [h180]
    exact qmod_self_of_mem t 180 h0 h1
  · have henc : encodeCsl n r t = encodeCslCore n r t := by rw [encodeCsl, hnorm]
    unfold decodeCsl
    rw [henc, argmax_encodeCslCore n r t h0 h1]
    have hble2 : (binOf n t : ℚ) ≤ (n : ℚ) := by exact_mod_cast hble
    have hb0 : (0 : ℚ) ≤ (binOf n t : ℚ) := by positivity
    have hmem0 : 0 ≤ ((binOf n t : ℚ) + 1 / 2) * binWidth n := by positivity
    have hmem1 : ((binOf n t : ℚ) + 1 / 2) * binWidth n < 180 := by
      have hstep : ((binOf n t : ℚ) + 1 / 2) * binWidth n <
          ((n : ℚ) + 1) * binWidth n := by
        apply mul_lt_mul_of_pos_right _ hw
        linarith
      linarith [binWidth_times n]
    rw [qmod_self_of_mem _ 180 hmem0 hmem1]
    have e2 : ((binOf n t : ℚ) + 1) * binWidth n =
        (binOf n t : ℚ) * binWidth n + binWidth n := by ring
    have e3 : ((binOf n t : ℚ) + 1 / 2) * binWidth n =
        (binOf n t : ℚ) * binWidth n + binWidth n / 2 := by ring
    rw [e2] at hhi
    rw [e3, abs_le]
    constructor <;> linarith
  · have henc : encodeMgar n t = encodeMgarCore n t := by rw [encodeMgar, hnorm]
    unfold decodeMgar
    rw [henc, argmax_encodeMgarCore n t h0 h1]
    have hsnd : (encodeMgarCore n t).2 =
        (t - (binOf n t : ℚ) * binWidth n) / binWidth n := rfl
    rw [hsnd]
    have he : ((binOf n t : ℚ) +
        (t - (binOf n t : ℚ) * binWidth n) / binWidth n) * binWidth n = t := by
      field_simp
    rw [he, qmod_self_of_mem t 180 h0 h1, sub_self, abs_zero]
    exact hw.le

/-- Witness for C1 at the concrete in-domain angle 30 with 4 bins. -/
theorem C1_decode_encode_roundtrip_witness :
    (0 : ℚ) ≤ 30 ∧ (30 : ℚ) < 180 ∧
      (decodeReg (encodeReg 30) = 30 ∧
       |decodeCsl 3 (encodeCsl 3 1 30) - 30| ≤ binWidth 3 ∧
       |decodeMgar 3 (encodeMgar 3 30) - 30| ≤ binWidth 3) :=
  ⟨by norm_num, by norm_num,
    C1_decode_encode_roundtrip 3 1 30 (by norm_num) (by norm_num)⟩

/-- C5: every decoded representation lies inside the codec's accepted
domain (wrapped by modular arithmetic), every input angle — in particular
an out-of-domain one — is normalized into the domain via modulo before
encoding rather than rejected, and the InvalidAngleDomain guard is
unreachable. -/
theorem C5_decode_in_domain (n r : ℕ) (t o x : ℚ) (v : Fin (n + 1) → ℚ) :
    decodeReg t ∈ angleDomain ∧
    decodeCsl n v ∈ angleDomain ∧
    decodeMgar n (v, o) ∈ angleDomain ∧
    normalizeAngle x ∈ angleDomain ∧
    guardDomain x = Except.ok (normalizeAngle x) ∧
    encodeReg x = encodeRegCore (normalizeAngle x) ∧
    encodeCsl n r x = encodeCslCore n r (normalizeAngle x) ∧
    encodeMgar n x = encodeMgarCore n (normalizeAngle x) := by
  have h180 : (0 : ℚ) < 180 := by norm_num
  have hmem : ∀ y : ℚ, qmod y 180 ∈ angleDomain := by
    intro y
    obtain ⟨ha, hb⟩ := qmod_bounds y 180 h180
    exact Set.mem_Ico.mpr ⟨ha, hb⟩
  obtain ⟨hx0, hx1⟩ := qmod_bounds x 180 h180
  refine ⟨hmem _, hmem _, hmem _, hmem _, ?_, rfl, rfl, rfl⟩
  unfold guardDomain
  rw [if_pos ⟨hx0, hx1⟩]

/-- C7: when quantization calibration is requested (both the quant and calib
flags are set), main calls trainer.calibrate and then returns without ever
calling trainer.train, so no optimizer step runs in a calibration run. -/
theorem C7_calibration_skips_training (a : OrchestratorArgs)
    (hq : a.quant = true) (hc : a.calib = true) :
    mainTrainerCalls a = [TrainerCall.calibrate] ∧
    TrainerCall.train ∉ mainTrainerCalls a := by
  unfold mainTrainerCalls
  rw [hq, hc]
  simp

/-- Witness for C7 with both flags set. -/
theorem C7_calibration_skips_training_witness :
    OrchestratorArgs.quant ⟨true, true⟩ = true ∧
    OrchestratorArgs.calib ⟨true, true⟩ = true ∧
    (mainTrainerCalls ⟨true, true⟩ = [TrainerCall.calibrate] ∧
      TrainerCall.train ∉ mainTrainerCalls ⟨true, true⟩) :=
  ⟨rfl, rfl, C7_calibration_skips_training ⟨true, true⟩ rfl rfl⟩

/-- C9 counterexample: at img_size 10, stride 32 and floor 100,
check_img_size returns [100, 100]; floor ≤ n holds, yet n = 100 is not a
multiple of the stride 32, refuting the claimed divisibility. -/
theorem C9_counterexample :
    check_img_size (ImgSizeArg.int 10) 32 100 = Except.ok [100, 100] ∧
    (100 : ℤ) ≤ 100 ∧ ¬ (32 : ℤ) ∣ 100 := by
  have hmd : make_divisible 10 32 = 32 := by
    have hc : ⌈((10 : ℤ) : ℚ) / ((32 : ℤ) : ℚ)⌉ = 1 := by
      rw [Int.ceil_eq_iff]
      norm_num
    unfold make_divisible
    rw [hc]
    norm_num
  refine ⟨?_, le_refl _, by decide⟩
  show Except.ok (List.replicate 2 (max (make_divisible 10 32) 100)) = _
  rw [hmd]
  rfl

/-- C9 (amended): for positive img_size and stride, check_img_size returns
the two-element list [n, n] with n = max(ceil(img_size / s) * s, floor), and
n is a multiple of s with n ≥ img_size whenever floor ≤ ceil(img_size/s)*s;
a list input is rounded element-wise keeping its length; any other input
raises an exception. -/
theorem C9_check_img_size_amended (nz s fl : ℤ) (_hn : 0 < nz) (hs : 0 < s) :
    check_img_size (ImgSizeArg.int nz) s fl =
      Except.ok [max (make_divisible nz s) fl, max (make_divisible nz s) fl] ∧
    (fl ≤ make_divisible nz s →
      (s ∣ max (make_divisible nz s) fl ∧ nz ≤ max (make_divisible nz s) fl)) ∧
    (∀ xs : List ℤ,
      check_img_size (ImgSizeArg.list xs) s fl =
        Except.ok (xs.map fun x => max (make_divisible x s) fl) ∧
      (xs.map fun x => max (make_divisible x s) fl).length = xs.length) ∧
    (∃ msg, check_img_size ImgSizeArg.other s fl = Except.error msg) := by
  have hdvd : s ∣ make_divisible nz s := dvd_mul_left s ⌈(nz : ℚ) / (s : ℚ)⌉
  have hle : nz ≤ make_divisible nz s := by
    have hsq : (0 : ℚ) < (s : ℚ) := by exact_mod_cast hs
    have hq : (nz : ℚ) / (s : ℚ) ≤ (⌈(nz : ℚ) / (s : ℚ)⌉ : ℚ) := Int.le_ceil _
    rw [div_le_iff₀ hsq] at hq
    have h3 : ((make_divisible nz s : ℤ) : ℚ) =
        (⌈(nz : ℚ) / (s : ℚ)⌉ : ℚ) * (s : ℚ) := by
      unfold make_divisible
      push_cast
      ring
    rw [← h3] at hq
    exact_mod_cast hq
  refine ⟨?_, ?_, ?_, ⟨_, rfl⟩⟩
  · show Except.ok (List.replicate 2 (max (make_divisible nz s) fl)) = _
    rfl
  · intro hfl
    rw [max_eq_left hfl]
    exact ⟨hdvd, hle⟩
  · intro xs
    exact ⟨rfl, xs.length_map _⟩

/-- Witness for the amended C9 at img_size 100, stride 32, floor 0. -/
theorem C9_check_img_size_amended_witness :
    (0 : ℤ) < 100 ∧ (0 : ℤ) < 32 ∧
    (check_img_size (ImgSizeArg.int 100) 32 0 =
      Except.ok [max (make_divisible 100 32) 0, max (make_divisible 100 32) 0] ∧
    ((0 : ℤ) ≤ make_divisible 100 32 →
      ((32 : ℤ) ∣ max (make_divisible 100 32) 0 ∧
        (100 : ℤ) ≤ max (make_divisible 100 32) 0)) ∧
    (∀ xs : List ℤ,
      check_img_size (ImgSizeArg.list xs) 32 0 =
        Except.ok (xs.map fun x => max (make_divisible x 32) 0) ∧
      (xs.map fun x => max (make_divisible x 32) 0).length = xs.length) ∧
    (∃ msg, check_img_size ImgSizeArg.other 32 0 = Except.error msg)) :=
  ⟨by norm_num, by norm_num,
    C9_check_img_size_amended 100 32 0 (by norm_num) (by norm_num)⟩

/-- C10: with a truthy resume argument, check_and_init fails with an
assertion error when the resolved checkpoint path is not an existing file
(never silently starting a fresh run); when an args.yaml exists two
directories above the checkpoint, the whole argument namespace is replaced
by its saved values; and in every successful resume case the resulting
resume field holds the checkpoint file path. -/
theorem C10_check_and_init_resume (fs : FileSystem) (args : RunArgs)
    (hres : args.resume ≠ ResumeArg.off) :
    (fs.isFile (resolveCkptPath fs args.resume) = false →
      check_and_init_args fs args =
        Except.error "the checkpoint path is not exist") ∧
    (∀ saved, fs.isFile (resolveCkptPath fs args.resume) = true →
      fs.savedArgs ((resolveCkptPath fs args.resume).dropLast.dropLast ++
        ["args.yaml"]) = some saved →
      check_and_init_args fs args =
        Except.ok { saved with
          resume := ResumeArg.path (resolveCkptPath fs args.resume) }) ∧
    (fs.isFile (resolveCkptPath fs args.resume) = true →
      ∃ out, check_and_init_args fs args = Except.ok out ∧
        out.resume = ResumeArg.path (resolveCkptPath fs args.resume)) := by
  obtain ⟨res, sd, pl⟩ := args
  cases res with
  | off => exact absurd rfl hres
  | flag =>
    refine ⟨?_, ?_, ?_⟩
    · intro hno
      simp [check_and_init_args, hno]
    · intro saved hyes hsa
      simp [check_and_init_args, hyes, hsa]
    · intro hyes
      rcases hsa : fs.savedArgs ((resolveCkptPath fs ResumeArg.flag).dropLast.dropLast ++
          ["args.yaml"]) with _ | saved
      · exact ⟨⟨ResumeArg.path (resolveCkptPath fs ResumeArg.flag),
            (resolveCkptPath fs ResumeArg.flag).dropLast.dropLast, pl⟩,
          by simp [check_and_init_args, hyes, hsa], rfl⟩
      · exact ⟨⟨ResumeArg.path (resolveCkptPath fs ResumeArg.flag),
            saved.save_dir, saved.payload⟩,
          by simp [check_and_init_args, hyes, hsa], rfl⟩
  | path p =>
    refine ⟨?_, ?_, ?_⟩
    · intro hno
      simp [check_and_init_args, hno]
    · intro saved hyes hsa
      simp only [resolveCkptPath] at hyes hsa
      simp [check_and_init_args, resolveCkptPath, hyes, hsa]
    · intro hyes
      rcases hsa : fs.savedArgs ((resolveCkptPath fs (ResumeArg.path p)).dropLast.dropLast ++
          ["args.yaml"]) with _ | saved
      · refine ⟨⟨ResumeArg.path (resolveCkptPath fs (ResumeArg.path p)),
            (resolveCkptPath fs (ResumeArg.path p)).dropLast.dropLast, pl⟩, ?_, rfl⟩
        simp only [resolveCkptPath] at hyes hsa
        simp [check_and_init_args, resolveCkptPath, hyes, hsa]
      · refine ⟨⟨ResumeArg.path (resolveCkptPath fs (ResumeArg.path p)),
            saved.save_dir, saved.payload⟩, ?_, rfl⟩
        simp only [resolveCkptPath] at hyes hsa
        simp [check_and_init_args, resolveCkptPath, hyes, hsa]

/-- Witness for C10: resuming from an existing checkpoint whose run
directory holds an args.yaml replaces the namespace by the saved values and
points resume at the checkpoint path. -/
theorem C10_check_and_init_resume_witness :
    check_and_init_args
      ⟨fun p => decide (p = ["runs", "exp", "weights", "best.pt"]),
       fun p => if p = ["runs", "exp", "args.yaml"]
         then some ⟨ResumeArg.off, ["saved"], 7⟩ else none,
       [], ["fresh"]⟩
      ⟨ResumeArg.path ["runs", "exp", "weights", "best.pt"], ["cmdline"], 1⟩ =
      Except.ok ⟨ResumeArg.path ["runs", "exp", "weights", "best.pt"], ["saved"], 7⟩ :=
  (C10_check_and_init_resume
      ⟨fun p => decide (p = ["runs", "exp", "weights", "best.pt"]),
       fun p => if p = ["runs", "exp", "args.yaml"]
         then some ⟨ResumeArg.off, ["saved"], 7⟩ else none,
       [], ["fresh"]⟩
      ⟨ResumeArg.path ["runs", "exp", "weights", "best.pt"], ["cmdline"], 1⟩
      (by decide)).2.1 ⟨ResumeArg.off, ["saved"], 7⟩ (by decide) (by decide)

/-- C8: rescale exactly inverts the letterbox transform (scale plus pad
offsets): the forward letterbox transform followed by rescale at the same
shapes and padding is the identity on boxes; rescale is monotonic in the
box coordinates; and the Detector.forward post-processing maps every NMS
output box back into original-image coordinates via rescale. -/
theorem C8_rescale_inverts_letterbox (fs ts : ℚ × ℚ) (pw ph : ℚ) (b b2 : HBox)
    (hf1 : 0 < fs.1) (hf2 : 0 < fs.2) (ht1 : 0 < ts.1) (ht2 : 0 < ts.2) :
    rescaleBox fs ts pw ph (letterboxFwd fs ts pw ph b) = b ∧
    (boxLE b b2 → boxLE (rescaleBox fs ts pw ph b) (rescaleBox fs ts pw ph b2)) ∧
    (∀ (iou : HBox → HBox → ℚ) (confThr iouThr : ℚ) (maxDet : ℕ)
        (preds : List (Cand HBox)),
      detectorForwardBoxes iou confThr iouThr maxDet fs ts pw ph preds =
        (nmsR iou confThr iouThr maxDet preds).map fun c =>
          { c with box := roundBox (rescaleBox fs ts pw ph c.box) }) := by
  have hg : 0 < letterGain fs ts :=
    lt_min (div_pos hf1 ht1) (div_pos hf2 ht2)
  have hgne : letterGain fs ts ≠ 0 := ne_of_gt hg
  refine ⟨?_, ?_, fun _ _ _ _ _ => rfl⟩
  · obtain ⟨x1, y1, x2, y2⟩ := b
    simp only [letterboxFwd, rescaleBox, HBox.mk.injEq]
    refine ⟨?_, ?_, ?_, ?_⟩ <;> field_simp
  · intro hle
    obtain ⟨h1, h2, h3, h4⟩ := hle
    refine ⟨?_, ?_, ?_, ?_⟩ <;>
      exact div_le_div_of_nonneg_right (by linarith) hg.le

/-- Witness for C8: the letterbox round trip at concrete shapes. -/
theorem C8_rescale_inverts_letterbox_witness :
    rescaleBox (640, 640) (480, 640) 0 80
      (letterboxFwd (640, 640) (480, 640) 0 80 ⟨0, 0, 10, 10⟩) = ⟨0, 0, 10, 10⟩ :=
  (C8_rescale_inverts_letterbox (640, 640) (480, 640) 0 80 ⟨0, 0, 10, 10⟩
    ⟨0, 0, 20, 20⟩ (by norm_num) (by norm_num) (by norm_num) (by norm_num)).1

theorem ownerUpTo_claims (cl : ℕ → Bool) (f : ℕ → ℚ) :
    ∀ k j, ownerUpTo cl f k = some j → cl j = true ∧ j < k := by
  intro k
  induction k with
  | zero => intro j h; simp [ownerUpTo] at h
  | succ k ih =>
    intro j h
    simp only [ownerUpTo] at h
    by_cases hc : cl k = true
    · rw [if_pos hc] at h
      rcases hprev : ownerUpTo cl f k with _ | j2 <;> simp only [hprev] at h
      · obtain rfl := Option.some.inj h
        exact ⟨hc, Nat.lt_succ_self k⟩
      · by_cases hf : f j2 < f k
        · rw [if_pos hf] at h
          obtain rfl := Option.some.inj h
          exact ⟨hc, Nat.lt_succ_self k⟩
        · rw [if_neg hf] at h
          obtain rfl := Option.some.inj h
          obtain ⟨hcl, hlt⟩ := ih _ hprev
          exact ⟨hcl, Nat.lt_succ_of_lt hlt⟩
    · rw [if_neg hc] at h
      obtain ⟨hcl, hlt⟩ := ih j h
      exact ⟨hcl, Nat.lt_succ_of_lt hlt⟩

theorem ownerUpTo_isSome (cl : ℕ → Bool) (f : ℕ → ℚ) :
    ∀ k i, i < k → cl i = true → (ownerUpTo cl f k).isSome = true := by
  intro k
  induction k with
  | zero => intro i hi; omega
  | succ k ih =>
    intro i hi hcl
    simp only [ownerUpTo]
    by_cases hc : cl k = true
    · rw [if_pos hc]
      rcases hprev : ownerUpTo cl f k with _ | j <;> simp only [hprev]
      · rfl
      · split <;> rfl
    · rw [if_neg hc]
      have hik : i ≠ k := fun hik => hc (hik ▸ hcl)
      exact ih i (by omega) hcl

theorem ownerUpTo_max (cl : ℕ → Bool) (f : ℕ → ℚ) :
    ∀ k j, ownerUpTo cl f k = some j →
      ∀ i, i < k → cl i = true → f i ≤ f j ∧ (f i = f j → j ≤ i) := by
  intro k
  induction k with
  | zero => intro j h; simp [ownerUpTo] at h
  | succ k ih =>
    intro j h i hik hcl
    simp only [ownerUpTo] at h
    by_cases hc : cl k = true
    · rw [if_pos hc] at h
      rcases hprev : ownerUpTo cl f k with _ | j2 <;> simp only [hprev] at h
      · obtain rfl := Option.some.inj h
        rcases Nat.lt_succ_iff_lt_or_eq.mp hik with hlt | heq
        · exfalso
          have hsome := ownerUpTo_isSome cl f k i hlt hcl
          rw [hprev] at hsome
          simp at hsome
        · subst heq
          exact ⟨le_refl _, fun _ => le_refl _⟩
      · by_cases hf : f j2 < f k
        · rw [if_pos hf] at h
          obtain rfl := Option.some.inj h
          rcases Nat.lt_succ_iff_lt_or_eq.mp hik with hlt | heq
          · obtain ⟨hle, _⟩ := ih j2 hprev i hlt hcl
            constructor
            · linarith
            · intro heq2
              exact absurd heq2 (by linarith [hle, hf])
          · subst heq
            exact ⟨le_refl _, fun _ => le_refl _⟩
        · rw [if_neg hf] at h
          obtain rfl := Option.some.inj h
          rcases Nat.lt_succ_iff_lt_or_eq.mp hik with hlt | heq
          · exact ih _ hprev i hlt hcl
          · subst heq
            obtain ⟨_, hjk⟩ := ownerUpTo_claims cl f _ _ hprev
            exact ⟨not_lt.mp hf, fun _ => Nat.le_of_lt hjk⟩
    · rw [if_neg hc] at h
      rcases Nat.lt_succ_iff_lt_or_eq.mp hik with hlt | heq
      · exact ih j h i hlt hcl
      · subst heq
        exact absurd hcl (by simpa using hc)

/-- C6: the assigner resolves each grid site to at most one owning
ground-truth instance, deterministically: any two selected owners coincide,
an owner exists as soon as some instance claims the site, the owner claims
the site, every claiming instance has rotated IoU at most the owner's, and
on equal IoU the owner has the lower instance index — so no site carries
conflicting regression targets. -/
theorem C6_assigner_unique_owner (cl : ℕ → Bool) (f : ℕ → ℚ) (numInst j1 j2 : ℕ)
    (h1 : ownerUpTo cl f numInst = some j1)
    (h2 : ownerUpTo cl f numInst = some j2) :
    j1 = j2 ∧
    cl j1 = true ∧ j1 < numInst ∧
    (∀ i, i < numInst → cl i = true → (ownerUpTo cl f numInst).isSome = true) ∧
    (∀ i, i < numInst → cl i = true → f i ≤ f j1 ∧ (f i = f j1 → j1 ≤ i)) := by
  obtain ⟨hcl, hlt⟩ := ownerUpTo_claims cl f numInst j1 h1
  exact ⟨Option.some.inj (h1.symm.trans h2), hcl, hlt,
    fun i hi hc => ownerUpTo_isSome cl f numInst i hi hc,
    fun i hi hc => ownerUpTo_max cl f numInst j1 h1 i hi hc⟩

/-- Witness for C6: three claiming instances with IoUs 1, 2, 1 — instance 1
wins the site. -/
theorem C6_assigner_unique_owner_witness :
    ownerUpTo (fun i => decide (i < 3)) (fun i => if i = 1 then 2 else 1) 3 =
      some 1 ∧
    (1 = 1 ∧
      (fun i : ℕ => decide (i < 3)) 1 = true ∧ 1 < 3 ∧
      (∀ i, i < 3 → (fun i : ℕ => decide (i < 3)) i = true →
        (ownerUpTo (fun i => decide (i < 3))
          (fun i => if i = 1 then 2 else 1) 3).isSome = true) ∧
      (∀ i, i < 3 → (fun i : ℕ => decide (i < 3)) i = true →
        (fun i : ℕ => if i = 1 then (2 : ℚ) else 1) i ≤
            (fun i : ℕ => if i = 1 then (2 : ℚ) else 1) 1 ∧
          ((fun i : ℕ => if i = 1 then (2 : ℚ) else 1) i =
              (fun i : ℕ => if i = 1 then (2 : ℚ) else 1) 1 → 1 ≤ i))) :=
  ⟨by decide,
    C6_assigner_unique_owner (fun i => decide (i < 3))
      (fun i => if i = 1 then 2 else 1) 3 1 1 (by decide) (by decide)⟩

theorem aggregateLoss_noPos (lw : LossWeights) (sites : List SiteLossData)
    (hneg : ∀ s ∈ sites, s.pos = false) :
    aggregateLoss lw sites =
      some (⟨(sites.map fun s => s.clsVal).sum, 0, 0, 0⟩,
        lw.wClass * (sites.map fun s => s.clsVal).sum) := by
  have hfil : sites.filter (fun s => s.pos) = [] := by
    rw [List.filter_eq_nil_iff]
    intro a ha
    simp [hneg a ha]
  unfold aggregateLoss
  rw [hfil]
  rfl

/-- C3: when a batch contains zero positive sites — in particular when it
contains zero ground-truth instances, so the assigner selects no owner
anywhere — the aggregator returns box, DFL and angle terms exactly zero,
still computes the classification loss over the (negative) sites, and
returns a total (never a division-by-zero fault): the weighted
classification term alone. -/
theorem C3_zero_positives_loss (lw : LossWeights) (sites : List SiteLossData)
    (cl : ℕ → ℕ → Bool) (f : ℕ → ℕ → ℚ) (base : List SiteLossData)
    (hneg : ∀ s ∈ sites, s.pos = false) :
    aggregateLoss lw sites =
      some (⟨(sites.map fun s => s.clsVal).sum, 0, 0, 0⟩,
        lw.wClass * (sites.map fun s => s.clsVal).sum) ∧
    (∀ s ∈ assignedSites cl f 0 base, s.pos = false) ∧
    aggregateLoss lw (assignedSites cl f 0 base) =
      some (⟨((assignedSites cl f 0 base).map fun s => s.clsVal).sum, 0, 0, 0⟩,
        lw.wClass * ((assignedSites cl f 0 base).map fun s => s.clsVal).sum) := by
  have hneg0 : ∀ s ∈ assignedSites cl f 0 base, s.pos = false := by
    intro s hs
    unfold assignedSites at hs
    obtain ⟨si, _, rfl⟩ := List.mem_map.mp hs
    rfl
  exact ⟨aggregateLoss_noPos lw sites hneg, hneg0,
    aggregateLoss_noPos lw _ hneg0⟩

/-- Witness for C3 on a one-site all-negative batch. -/
theorem C3_zero_positives_loss_witness :
    aggregateLoss ⟨1, 2, 3, 4⟩ [⟨false, 3, 5, 7, 9, 1⟩] =
      some (⟨([(⟨false, 3, 5, 7, 9, 1⟩ : SiteLossData)].map fun s => s.clsVal).sum,
          0, 0, 0⟩,
        (1 : ℚ) * ([(⟨false, 3, 5, 7, 9, 1⟩ : SiteLossData)].map
          fun s => s.clsVal).sum) :=
  (C3_zero_positives_loss ⟨1, 2, 3, 4⟩ [⟨false, 3, 5, 7, 9, 1⟩]
    (fun _ _ => false) (fun _ _ => 0) [] (by decide)).1

theorem nmsGreedy_nil {β : Type} (iou : β → β → ℚ) (thr : ℚ) (m : ℕ) :
    nmsGreedy iou thr m ([] : List (Cand β)) = [] := by
  cases m <;> rfl

theorem insertByConf_replicate {β : Type} (c : Cand β) (n : ℕ) :
    insertByConf c (List.replicate n c) = List.replicate (n + 1) c := by
  induction n with
  | zero => rfl
  | succ n ih =>
    show insertByConf c (c :: List.replicate n c) = _
    unfold insertByConf
    rw [if_neg (lt_irrefl c.conf), ih]
    rfl

theorem sortByConf_replicate {β : Type} (c : Cand β) (n : ℕ) :
    sortByConf (List.replicate n c) = List.replicate n c := by
  induction n with
  | zero => rfl
  | succ n ih =>
    show sortByConf (c :: List.replicate n c) = _
    unfold sortByConf
    rw [ih, insertByConf_replicate]

theorem nms_single {β : Type} (iou : β → β → ℚ) (confThr iouThr : ℚ) (maxDet : ℕ)
    (c : Cand β) (hconf : confThr ≤ c.conf) (hmd : 1 ≤ maxDet) :
    nmsR iou confThr iouThr maxDet [c] = [c] := by
  obtain ⟨m, rfl⟩ : ∃ m, maxDet = m + 1 := ⟨maxDet - 1, by omega⟩
  simp [nmsR, uniqueClasses, sortByConf, insertByConf, nmsGreedy, nmsGreedy_nil,
    hconf, List.filter]

theorem nms_identical {β : Type} (iou : β → β → ℚ) (confThr iouThr : ℚ) (m n : ℕ)
    (c : Cand β) (hconf : confThr ≤ c.conf) (hiou : iouThr < iou c.box c.box) :
    nmsR iou confThr iouThr (m + 1) (List.replicate (n + 1) c) = [c] := by
  have hns : ¬ (iou c.box c.box ≤ iouThr) := not_le.mpr hiou
  simp [nmsR, List.replicate_succ, List.filter_replicate, List.map_replicate,
    uniqueClasses, sortByConf, insertByConf_replicate, sortByConf_replicate,
    nmsGreedy, nmsGreedy_nil, hconf, hns]

theorem nms_two_below {β : Type} (iou : β → β → ℚ) (confThr iouThr : ℚ)
    (maxDet : ℕ) (c d : Cand β) (hc : confThr ≤ c.conf) (hd : confThr ≤ d.conf)
    (h1 : iou c.box d.box < iouThr) (h2 : iou d.box c.box < iouThr)
    (hmd : 2 ≤ maxDet) :
    (nmsR iou confThr iouThr maxDet [c, d]).Perm [c, d] := by
  obtain ⟨m, rfl⟩ : ∃ m, maxDet = m + 2 := ⟨maxDet - 2, by omega⟩
  have h1l : iou c.box d.box ≤ iouThr := h1.le
  have h2l : iou d.box c.box ≤ iouThr := h2.le
  by_cases hcls : d.cls = c.cls
  · by_cases hcd : d.conf < c.conf
    · have heq : nmsR iou confThr iouThr (m + 2) [c, d] = [c, d] := by
        simp [nmsR, uniqueClasses, sortByConf, insertByConf, nmsGreedy,
          nmsGreedy_nil, List.filter, hc, hd, hcls, hcd, h1l, h2l,
          List.take_succ_cons]
      rw [heq]
    · have heq : nmsR iou confThr iouThr (m + 2) [c, d] = [d, c] := by
        simp [nmsR, uniqueClasses, sortByConf, insertByConf, nmsGreedy,
          nmsGreedy_nil, List.filter, hc, hd, hcls, hcd, h1l, h2l,
          List.take_succ_cons]
      rw [heq]
      exact List.Perm.swap c d []
  · have hcls2 : ¬ (c.cls = d.cls) := fun h => hcls h.symm
    have heq : nmsR iou confThr iouThr (m + 2) [c, d] = [c, d] := by
      simp [nmsR, uniqueClasses, sortByConf, insertByConf, nmsGreedy,
        nmsGreedy_nil, List.filter, hc, hd, hcls, hcls2, h1l, h2l,
        List.take_succ_cons]
    rw [heq]

theorem nms_scenario {β : Type} (iou : β → β → ℚ) (b1 b2 : β) (k : ℕ)
    (confThr : ℚ) (maxDet : ℕ) (hconf : confThr ≤ 6 / 10)
    (hio : iou b1 b2 = 7 / 10) (hmd : 1 ≤ maxDet) :
    nmsR iou confThr (1 / 2) maxDet [⟨b1, 9 / 10, k⟩, ⟨b2, 6 / 10, k⟩] =
      [⟨b1, 9 / 10, k⟩] := by
  obtain ⟨m, rfl⟩ : ∃ m, maxDet = m + 1 := ⟨maxDet - 1, by omega⟩
  have hc1 : confThr ≤ (9 : ℚ) / 10 := by linarith
  have hno : ¬ (iou b1 b2 ≤ (1 : ℚ) / 2) := by rw [hio]; norm_num
  have hno2 : ¬ (iou b1 b2 ≤ (2 : ℚ)⁻¹) := by rw [hio]; norm_num
  have h69 : (6 : ℚ) / 10 < 9 / 10 := by norm_num
  simp [nmsR, uniqueClasses, sortByConf, insertByConf, nmsGreedy, nmsGreedy_nil,
    List.filter, hconf, hc1, hno, hno2, h69, List.take_succ_cons]

/-- C4: RotatedNMS returns a single above-threshold candidate unchanged;
returns exactly one of N identical candidates; returns both of two
candidates whose IoU is strictly below the threshold; and in the
end-to-end scenario (same class, IoU 0.7, confidences 0.9 and 0.6, IoU
threshold 0.5) keeps only the 0.9-confidence candidate. -/
theorem C4_nms_properties :
    (∀ (β : Type) (iou : β → β → ℚ) (confThr iouThr : ℚ) (maxDet : ℕ)
        (c : Cand β), confThr ≤ c.conf → 1 ≤ maxDet →
      nmsR iou confThr iouThr maxDet [c] = [c]) ∧
    (∀ (β : Type) (iou : β → β → ℚ) (confThr iouThr : ℚ) (m n : ℕ)
        (c : Cand β), confThr ≤ c.conf → iouThr < iou c.box c.box →
      nmsR iou confThr iouThr (m + 1) (List.replicate (n + 1) c) = [c]) ∧
    (∀ (β : Type) (iou : β → β → ℚ) (confThr iouThr : ℚ) (maxDet : ℕ)
        (c d : Cand β), confThr ≤ c.conf → confThr ≤ d.conf →
      iou c.box d.box < iouThr → iou d.box c.box < iouThr → 2 ≤ maxDet →
      (nmsR iou confThr iouThr maxDet [c, d]).Perm [c, d]) ∧
    (∀ (β : Type) (iou : β → β → ℚ) (b1 b2 : β) (k : ℕ) (confThr : ℚ)
        (maxDet : ℕ), confThr ≤ 6 / 10 → iou b1 b2 = 7 / 10 → 1 ≤ maxDet →
      nmsR iou confThr (1 / 2) maxDet [⟨b1, 9 / 10, k⟩, ⟨b2, 6 / 10, k⟩] =
        [⟨b1, 9 / 10, k⟩]) :=
  ⟨fun _ iou confThr iouThr maxDet c hc hm =>
      nms_single iou confThr iouThr maxDet c hc hm,
   fun _ iou confThr iouThr m n c hc hi =>
      nms_identical iou confThr iouThr m n c hc hi,
   fun _ iou confThr iouThr maxDet c d hc hd h1 h2 hm =>
      nms_two_below iou confThr iouThr maxDet c d hc hd h1 h2 hm,
   fun _ iou b1 b2 k confThr maxDet hc hi hm =>
      nms_scenario iou b1 b2 k confThr maxDet hc hi hm⟩

/-- Witness for C4: the end-to-end scenario on concrete boxes with the
stated IoU, confidences and thresholds. -/
theorem C4_nms_properties_witness :
    nmsR (fun a b : ℕ => if a = b then 1 else 7 / 10) (1 / 4) (1 / 2) 300
      [⟨0, 9 / 10, 5⟩, ⟨1, 6 / 10, 5⟩] = [⟨0, 9 / 10, 5⟩] :=
  C4_nms_properties.2.2.2 ℕ (fun a b => if a = b then 1 else 7 / 10) 0 1 5
    (1 / 4) 300 (by norm_num) (by norm_num) (by norm_num)

open MeasureTheory in
theorem volume_rectSet (w h : ℝ) :
    volume (rectSet w h) = ENNReal.ofReal w * ENNReal.ofReal h := by
  unfold rectSet
  rw [volume_pi_pi]
  rw [Fin.prod_univ_two]
  simp only [Matrix.cons_val_zero, Matrix.cons_val_one, Matrix.head_cons,
    Real.volume_Icc]
  rw [show w / 2 - -w / 2 = w by ring, show h / 2 - -h / 2 = h by ring]

open MeasureTheory in
theorem volume_preimage_sub (a : Fin 2 → ℝ) (s : Set (Fin 2 → ℝ)) :
    volume (Set.preimage (fun p => p - a) s) = volume s := by
  have he : (fun p : Fin 2 → ℝ => p - a) = fun p => -a + p := by
    funext p
    exact sub_eq_neg_add p a
  rw [he]
  exact measure_preimage_add volume (-a) s

theorem det_rotInv (c s : ℝ) : LinearMap.det (rotInv c s) = c ^ 2 + s ^ 2 := by
  unfold rotInv
  rw [LinearMap.det_toLin']
  rw [Matrix.det_fin_two_of]
  ring

open MeasureTheory in
theorem volume_toSet (B : RBox) (hv : B.rc ^ 2 + B.rs ^ 2 = 1) :
    volume B.toSet = ENNReal.ofReal B.w * ENNReal.ofReal B.h := by
  have hdet : LinearMap.det (rotInv B.rc B.rs) ≠ 0 := by
    rw [det_rotInv, hv]
    norm_num
  have hts : B.toSet =
      Set.preimage (fun p => p - B.center)
        (Set.preimage (rotInv B.rc B.rs) (rectSet B.w B.h)) := rfl
  rw [hts, volume_preimage_sub,
    Measure.addHaar_preimage_linearMap volume hdet, det_rotInv, hv,
    volume_rectSet]
  norm_num

open MeasureTheory in
theorem volume_toSet_ne_top (B : RBox) (hv : B.rc ^ 2 + B.rs ^ 2 = 1) :
    volume B.toSet ≠ ⊤ := by
  rw [volume_toSet B hv]
  exact ENNReal.mul_ne_top ENNReal.ofReal_ne_top ENNReal.ofReal_ne_top

theorem RBox.area_eq (B : RBox) (hv : B.rc ^ 2 + B.rs ^ 2 = 1)
    (hw : 0 ≤ B.w) (hh : 0 ≤ B.h) : B.area = B.w * B.h := by
  unfold RBox.area
  rw [volume_toSet B hv, ← ENNReal.ofReal_mul hw]
  exact ENNReal.toReal_ofReal (mul_nonneg hw hh)

open MeasureTheory in
theorem interArea_le_left (A B : RBox) (hv : A.rc ^ 2 + A.rs ^ 2 = 1) :
    interArea A B ≤ A.area := by
  unfold interArea RBox.area
  exact ENNReal.toReal_mono (volume_toSet_ne_top A hv)
    (measure_mono Set.inter_subset_left)

open MeasureTheory in
theorem interArea_le_right (A B : RBox) (hv : B.rc ^ 2 + B.rs ^ 2 = 1) :
    interArea A B ≤ B.area := by
  unfold interArea RBox.area
  exact ENNReal.toReal_mono (volume_toSet_ne_top B hv)
    (measure_mono Set.inter_subset_right)

/-- C2: rotated IoU of a valid non-degenerate box with itself is 1; rotated
IoU is symmetric; it is 0 for boxes with disjoint point sets; a zero-area
box yields 0 rather than a division-by-zero fault; and for valid boxes the
result always lies in [0, 1]. -/
theorem C2_rotated_iou_properties :
    (∀ A : RBox, A.valid → A.nondeg → rotated_iou A A = 1) ∧
    (∀ A B : RBox, rotated_iou A B = rotated_iou B A) ∧
    (∀ A B : RBox, Disjoint A.toSet B.toSet → rotated_iou A B = 0) ∧
    (∀ A B : RBox, A.area = 0 ∨ B.area = 0 → rotated_iou A B = 0) ∧
    (∀ A B : RBox, A.valid → B.valid →
      0 ≤ rotated_iou A B ∧ rotated_iou A B ≤ 1) := by
  refine ⟨?_, ?_, ?_, ?_, ?_⟩
  · rintro A ⟨hv, hw, hh⟩ ⟨hw2, hh2⟩
    have ha : A.area = A.w * A.h := RBox.area_eq A hv hw hh
    have hpos : 0 < A.area := by
      rw [ha]
      exact mul_pos hw2 hh2
    have hint : interArea A A = A.area := by
      unfold interArea RBox.area
      rw [Set.inter_self]
    unfold rotated_iou
    rw [if_neg (by push_neg; exact ⟨ne_of_gt hpos, ne_of_gt hpos⟩)]
    rw [hint, show A.area + A.area - A.area = A.area by ring,
      div_self (ne_of_gt hpos)]
  · intro A B
    unfold rotated_iou
    have hi : interArea A B = interArea B A := by
      unfold interArea
      rw [Set.inter_comm]
    rw [hi, add_comm A.area]
    exact if_congr or_comm rfl rfl
  · intro A B hdisj
    have hint : interArea A B = 0 := by
      unfold interArea
      rw [Set.disjoint_iff_inter_eq_empty.mp hdisj]
      simp
    unfold rotated_iou
    split_ifs
    · rfl
    · rw [hint, zero_div]
  · intro A B h
    unfold rotated_iou
    rw [if_pos h]
  · rintro A B ⟨hvA, hwA, hhA⟩ ⟨hvB, hwB, hhB⟩
    unfold rotated_iou
    split_ifs with h
    · norm_num
    · push_neg at h
      obtain ⟨hA0, hB0⟩ := h
      have hApos : 0 < A.area := lt_of_le_of_ne ENNReal.toReal_nonneg (Ne.symm hA0)
      have hBpos : 0 < B.area := lt_of_le_of_ne ENNReal.toReal_nonneg (Ne.symm hB0)
      have hiA : interArea A B ≤ A.area := interArea_le_left A B hvA
      have hiB : interArea A B ≤ B.area := interArea_le_right A B hvB
      have hi0 : 0 ≤ interArea A B := ENNReal.toReal_nonneg
      have hu : 0 < A.area + B.area - interArea A B := by linarith
      refine ⟨div_nonneg hi0 hu.le, ?_⟩
      rw [div_le_one hu]
      linarith

theorem disjoint_unit_boxes :
    Disjoint (RBox.toSet ⟨0, 0, 1, 1, 1, 0⟩) (RBox.toSet ⟨10, 0, 1, 1, 1, 0⟩) := by
  rw [Set.disjoint_left]
  intro p hpA hpB
  unfold RBox.toSet rectSet at hpA hpB
  simp only [Set.mem_setOf_eq, Set.mem_pi, Set.mem_univ, forall_const] at hpA hpB
  have h1 := hpA 0
  have h2 := hpB 0
  simp only [rotInv, RBox.center, Matrix.toLin'_apply, Matrix.mulVec,
    Matrix.dotProduct, Fin.sum_univ_two, Matrix.of_apply, Matrix.cons_val_zero,
    Matrix.cons_val_one, Matrix.head_cons, Pi.sub_apply, Set.mem_Icc,
    Matrix.cons_val_fin_one, neg_zero, one_mul, zero_mul, mul_zero,
    sub_zero, add_zero, zero_add] at h1 h2
  obtain ⟨h1a, h1b⟩ := h1
  obtain ⟨h2a, h2b⟩ := h2
  norm_num at h1a h1b h2a h2b
  linarith

/-- Witness for C2 at a concrete unit box and a disjoint translate. -/
theorem C2_rotated_iou_properties_witness :
    RBox.valid ⟨0, 0, 1, 1, 1, 0⟩ ∧
    RBox.nondeg ⟨0, 0, 1, 1, 1, 0⟩ ∧
    rotated_iou ⟨0, 0, 1, 1, 1, 0⟩ ⟨0, 0, 1, 1, 1, 0⟩ = 1 ∧
    rotated_iou ⟨0, 0, 1, 1, 1, 0⟩ ⟨10, 0, 1, 1, 1, 0⟩ = 0 ∧
    (0 ≤ rotated_iou ⟨0, 0, 1, 1, 1, 0⟩ ⟨10, 0, 1, 1, 1, 0⟩ ∧
      rotated_iou ⟨0, 0, 1, 1, 1, 0⟩ ⟨10, 0, 1, 1, 1, 0⟩ ≤ 1) :=
  have hval : RBox.valid ⟨0, 0, 1, 1, 1, 0⟩ := by
    unfold RBox.valid
    norm_num
  have hvalB : RBox.valid ⟨10, 0, 1, 1, 1, 0⟩ := by
    unfold RBox.valid
    norm_num
  have hnd : RBox.nondeg ⟨0, 0, 1, 1, 1, 0⟩ := by
    unfold RBox.nondeg
    norm_num
  ⟨hval, hnd,
    C2_rotated_iou_properties.1 _ hval hnd,
    C2_rotated_iou_properties.2.2.1 _ _ disjoint_unit_boxes,
    C2_rotated_iou_properties.2.2.2.2 _ _ hval hvalB⟩
